import Mathlib

/-!
Verification of the FreeStyle-RapAnalyzer lyric-analysis core (src/app.py).

The transcript analyzer consumes a list of timed words (text, start, end,
confidence) and produces five sub-metrics plus a composite rating; the text
similarity comparator consumes two lyric strings and produces a similarity
percentage and a plagiarism flag.  Python floats are modelled by `ℚ`,
Python lists by `List`, and Python strings by `String` / `List Char`.
-/

/-- A recognized word with its timing and confidence metadata, as extracted
from the transcription response (`word["word"]`, `word["start"]`,
`word["end"]`, `word["confidence"]` in `src/app.py`). -/
structure Word where
  word : String
  start : ℚ
  «end» : ℚ
  confidence : ℚ

/-- `s[-3:].lower()` of `src/app.py` line 69, as a character list: the last
three characters of `s` (the whole string when it is shorter), lower-cased. -/
def lastThreeLower (s : String) : List Char :=
  (s.data.drop (s.data.length - 3)).map Char.toLower

/-- `find_rhyme_pairs` of `src/app.py` lines 63-71: the double loop
`for i in range(len(words)): for j in range(i+1, len(words))` appends
`(words[i], words[j])` whenever `words[i][-3:].lower() == words[j][-3:].lower()`.
The head of the list is paired with every later element, then the loop
continues on the tail. -/
def find_rhyme_pairs : List String → List (String × String)
  | [] => []
  | w :: rest =>
      (rest.filterMap fun v =>
        if lastThreeLower w = lastThreeLower v then some (w, v) else none)
        ++ find_rhyme_pairs rest

/-- The average word duration `sum(word_durations) / len(word_durations)`
computed by `calculate_rap_speed` (`src/app.py` lines 81-84) from the
`(word, start, end)` triples of `flow_data`. -/
def avg_time_per_word (flow_data : List (String × ℚ × ℚ)) : ℚ :=
  ((flow_data.map fun wse => wse.2.2 - wse.2.1).sum) /
    ((flow_data.map fun wse => wse.2.2 - wse.2.1).length : ℚ)

/-- `calculate_rap_speed` of `src/app.py` lines 73-106: `0` on empty input,
otherwise the threshold ladder on the average time per word. -/
def calculate_rap_speed (flow_data : List (String × ℚ × ℚ)) : ℕ :=
  if flow_data.isEmpty then 0
  else
    let avg := avg_time_per_word flow_data
    if avg < 0.2 then 10
    else if avg < 0.3 then 9
    else if avg < 0.4 then 8
    else if avg < 0.5 then 7
    else if avg < 0.6 then 6
    else if avg < 0.7 then 5
    else if avg < 0.8 then 4
    else if avg < 0.9 then 3
    else if avg < 1.0 then 2
    else 1

/-- `rhyme_density` of `src/app.py` line 127:
`len(rhyme_pairs) / len(words) if words else 0`. -/
def rhymeDensity (ws : List String) : ℚ :=
  if ws.isEmpty then 0
  else ((find_rhyme_pairs ws).length : ℚ) / (ws.length : ℚ)

/-- `word_complexity` of `src/app.py` lines 134-135:
`len(set(word texts)) / len(words) if words else 0`; the size of the set of
word texts is the number of distinct texts, i.e. `List.dedup`'s length. -/
def wordComplexity (words : List Word) : ℚ :=
  if words.isEmpty then 0
  else (((words.map Word.word).dedup.length : ℕ) : ℚ) / (words.length : ℚ)

/-- `confidence_rating` of `src/app.py` lines 138-139:
`1 - len([w for w in words if w.confidence < 0.8]) / len(words) if words else 0`. -/
def confidenceRating (words : List Word) : ℚ :=
  if words.isEmpty then 0
  else 1 - (((words.filter fun w => w.confidence < 0.8).length : ℕ) : ℚ) / (words.length : ℚ)

/-- `emphasis_rating` of `src/app.py` lines 142-146: `word_counts` maps each
distinct text to its occurrence count, `repeated_words` keeps those with count
above one, and the rating is `len(repeated_words) / len(words) if words else 0`. -/
def emphasisRating (words : List Word) : ℚ :=
  if words.isEmpty then 0
  else
    (((words.map Word.word).dedup.filter fun t =>
        1 < (words.map Word.word).count t).length : ℚ) / (words.length : ℚ)

/-- `calculate_rap_rating` of `src/app.py` lines 108-160 restricted to the
word list already extracted from the response: returns `0` when there are no
words, otherwise the weighted sum of the five sub-metrics
`(rhyme*0.3)+(speed*0.2)+(complexity*0.2)+(confidence*0.2)+(emphasis*0.1)`
clamped via `min(max(x*10, 0), 10)`. -/
def calculate_rap_rating (words : List Word) : ℚ :=
  if words.isEmpty then 0
  else
    let rhyme_density := rhymeDensity (words.map Word.word)
    let rap_speed_rating := calculate_rap_speed (words.map fun w => (w.word, w.start, w.«end»))
    let word_complexity := wordComplexity words
    let confidence_rating := confidenceRating words
    let emphasis_rating := emphasisRating words
    let overall_rating :=
      rhyme_density * 0.3 + (rap_speed_rating : ℚ) * 0.2 + word_complexity * 0.2 +
        confidence_rating * 0.2 + emphasis_rating * 0.1
    min (max (overall_rating * 10) 0) 10

/-- The composite-rating formula exactly as the specification words it:
`raw = 0.3*rhymeDensity + 0.2*speedRating + 0.2*wordComplexity +
0.2*confidenceRating + 0.1*emphasisRating` and
`overallRating = clamp(raw * 10, 0, 10)`, with `speedRating` used directly on
its 0-10 scale.  Stated separately from `calculate_rap_rating` so that the
code can be proved to refine the spec's formula. -/
def overallRatingSpec (words : List Word) : ℚ :=
  let raw :=
    0.3 * rhymeDensity (words.map Word.word) +
      0.2 * ((calculate_rap_speed (words.map fun w => (w.word, w.start, w.«end»)) : ℕ) : ℚ) +
      0.2 * wordComplexity words +
      0.2 * confidenceRating words +
      0.1 * emphasisRating words
  min (max (raw * 10) 0) 10

/-- C6: An empty transcript is not an error: every sub-metric is `0` and the
composite overall rating is `0`. -/
theorem empty_transcript_all_zero :
    rhymeDensity [] = 0 ∧ calculate_rap_speed [] = 0 ∧ wordComplexity [] = 0 ∧
      confidenceRating [] = 0 ∧ emphasisRating [] = 0 ∧ calculate_rap_rating [] = 0 := by
  refine ⟨rfl, rfl, rfl, rfl, rfl, rfl⟩

/-- C1: For every non-empty word sequence, `calculate_rap_rating` combines the
five sub-metrics exactly as
`raw = 0.3*rhymeDensity + 0.2*speedRating + 0.2*wordComplexity +
0.2*confidenceRating + 0.1*emphasisRating` with `speedRating` on its 0-10
scale, and returns `clamp(raw * 10, 0, 10)`. -/
theorem calculate_rap_rating_eq_spec_formula (words : List Word) (h : words ≠ []) :
    calculate_rap_rating words = overallRatingSpec words := by
  have hne : words.isEmpty = false := by
    simpa [List.isEmpty_iff] using h
  simp only [calculate_rap_rating, overallRatingSpec, hne, Bool.false_eq_true, if_false]
  ring_nf

/-- Witness for C1 at the one-word transcript `[("yo", 0, 1, 1)]`. -/
theorem calculate_rap_rating_eq_spec_formula_witness :
    calculate_rap_rating [⟨"yo", 0, 1, 1⟩] = overallRatingSpec [⟨"yo", 0, 1, 1⟩] :=
  calculate_rap_rating_eq_spec_formula [⟨"yo", 0, 1, 1⟩] (by simp)

set_option maxHeartbeats 1600000 in
/-- C5: the threshold ladder of `calculate_rap_speed`, with strict upper
bounds tested in order: in particular an average of exactly `0.2` yields 9
(not 10), an average of exactly `1.0` yields 1, and any average `≥ 1.0`
yields 1. -/
theorem calculate_rap_speed_thresholds (fd : List (String × ℚ × ℚ)) (h : fd ≠ []) :
    (avg_time_per_word fd < 0.2 → calculate_rap_speed fd = 10) ∧
    (0.2 ≤ avg_time_per_word fd → avg_time_per_word fd < 0.3 → calculate_rap_speed fd = 9) ∧
    (0.3 ≤ avg_time_per_word fd → avg_time_per_word fd < 0.4 → calculate_rap_speed fd = 8) ∧
    (0.4 ≤ avg_time_per_word fd → avg_time_per_word fd < 0.5 → calculate_rap_speed fd = 7) ∧
    (0.5 ≤ avg_time_per_word fd → avg_time_per_word fd < 0.6 → calculate_rap_speed fd = 6) ∧
    (0.6 ≤ avg_time_per_word fd → avg_time_per_word fd < 0.7 → calculate_rap_speed fd = 5) ∧
    (0.7 ≤ avg_time_per_word fd → avg_time_per_word fd < 0.8 → calculate_rap_speed fd = 4) ∧
    (0.8 ≤ avg_time_per_word fd → avg_time_per_word fd < 0.9 → calculate_rap_speed fd = 3) ∧
    (0.9 ≤ avg_time_per_word fd → avg_time_per_word fd < 1.0 → calculate_rap_speed fd = 2) ∧
    (1.0 ≤ avg_time_per_word fd → calculate_rap_speed fd = 1) ∧
    (avg_time_per_word fd = 0.2 → calculate_rap_speed fd = 9) ∧
    (avg_time_per_word fd = 1.0 → calculate_rap_speed fd = 1) := by
  have hne : fd.isEmpty = false := by simpa [List.isEmpty_iff] using h
  simp only [calculate_rap_speed, hne, Bool.false_eq_true, if_false]
  split_ifs with h1 h2 h3 h4 h5 h6 h7 h8 h9 <;>
    refine ⟨?_, ?_, ?_, ?_, ?_, ?_, ?_, ?_, ?_, ?_, ?_, ?_⟩ <;>
      intros <;> first | rfl | (exfalso; linarith)

/-- Witness for C5: a single word spoken over exactly `0.2` seconds is
rated 9. -/
theorem calculate_rap_speed_thresholds_witness :
    calculate_rap_speed [("a", 0, 0.2)] = 9 :=
  (calculate_rap_speed_thresholds [("a", 0, 0.2)]
      (by simp)).2.2.2.2.2.2.2.2.2.2.1 (by norm_num [avg_time_per_word])

/-- Lists of naturals that are all at least 2 sum to at least twice their
length. -/
lemma two_mul_length_le_sum (xs : List ℕ) : (∀ x ∈ xs, 2 ≤ x) → 2 * xs.length ≤ xs.sum := by
  induction xs with
  | nil => intro _; simp
  | cons a l ih =>
    intro h
    have ha := h a (by simp)
    have hl := ih fun x hx => h x (by simp [hx])
    simp only [List.length_cons, List.sum_cons]
    omega

/-- Each distinct text counted as repeated occurs at least twice in `l`, so
the repeated texts number at most half of `l`. -/
lemma two_mul_length_repeated_le (l : List String) :
    2 * (l.dedup.filter fun t => 1 < l.count t).length ≤ l.length := by
  have hsum : ((l.dedup.filter fun t => 1 < l.count t).map fun x => l.count x).sum
      = l.countP fun t => 1 < l.count t :=
    List.sum_map_count_dedup_filter_eq_countP _ l
  have hmem : ∀ x ∈ (l.dedup.filter fun t => 1 < l.count t).map fun x => l.count x, 2 ≤ x := by
    intro x hx
    obtain ⟨t, ht, rfl⟩ := List.mem_map.mp hx
    have h2 := (List.mem_filter.mp ht).2
    simp only [decide_eq_true_eq] at h2
    omega
  have h1 := two_mul_length_le_sum _ hmem
  rw [List.length_map] at h1
  exact le_trans (hsum ▸ h1) (List.countP_le_length _)

/-- The double loop of `find_rhyme_pairs` emits at most one pair per index
pair `i < j`: `2 * |pairs| + n ≤ n²`. -/
lemma two_mul_length_find_rhyme_pairs_le (ws : List String) :
    2 * (find_rhyme_pairs ws).length + ws.length ≤ ws.length * ws.length := by
  induction ws with
  | nil => simp [find_rhyme_pairs]
  | cons w rest ih =>
    have hfm : (rest.filterMap fun v =>
        if lastThreeLower w = lastThreeLower v then some (w, v) else none).length
        ≤ rest.length := List.length_filterMap_le _ _
    simp only [find_rhyme_pairs, List.length_append, List.length_cons]
    nlinarith [ih, hfm]

/-- C9: word complexity, confidence rating and emphasis rating all lie in
`[0, 1]`, and the overall rating lies in `[0, 10]`, for every word
sequence. -/
theorem submetric_and_overall_bounds (words : List Word) :
    (0 ≤ wordComplexity words ∧ wordComplexity words ≤ 1) ∧
    (0 ≤ confidenceRating words ∧ confidenceRating words ≤ 1) ∧
    (0 ≤ emphasisRating words ∧ emphasisRating words ≤ 1) ∧
    (0 ≤ calculate_rap_rating words ∧ calculate_rap_rating words ≤ 10) := by
  by_cases h : words.isEmpty
  · have h0 : words = [] := List.isEmpty_iff.mp h
    subst h0
    norm_num [wordComplexity, confidenceRating, emphasisRating, calculate_rap_rating]
  · have hne : words.isEmpty = false := by simpa using h
    have hwne : words ≠ [] := by simpa [List.isEmpty_iff] using h
    have hn : 0 < words.length := List.length_pos.mpr hwne
    have hnQ : (0 : ℚ) < (words.length : ℚ) := by exact_mod_cast hn
    have hdedup : (words.map Word.word).dedup.length ≤ words.length := by
      simpa using (List.dedup_sublist (words.map Word.word)).length_le
    have hfilter : (words.filter fun w => w.confidence < 0.8).length ≤ words.length :=
      List.length_filter_le _ _
    have hrep : ((words.map Word.word).dedup.filter fun t =>
        1 < (words.map Word.word).count t).length ≤ words.length := by
      refine le_trans (le_trans (List.length_filter_le _ _)
        (List.dedup_sublist (words.map Word.word)).length_le) ?_
      simp
    refine ⟨⟨?_, ?_⟩, ⟨?_, ?_⟩, ⟨?_, ?_⟩, ?_, ?_⟩
    · simp only [wordComplexity, hne, Bool.false_eq_true, if_false]
      positivity
    · simp only [wordComplexity, hne, Bool.false_eq_true, if_false]
      rw [div_le_one hnQ]
      exact_mod_cast hdedup
    · simp only [confidenceRating, hne, Bool.false_eq_true, if_false]
      have : (((words.filter fun w => w.confidence < 0.8).length : ℕ) : ℚ) / (words.length : ℚ) ≤ 1 := by
        rw [div_le_one hnQ]
        exact_mod_cast hfilter
      linarith
    · simp only [confidenceRating, hne, Bool.false_eq_true, if_false]
      have : (0:ℚ) ≤ (((words.filter fun w => w.confidence < 0.8).length : ℕ) : ℚ) / (words.length : ℚ) := by
        positivity
      linarith
    · simp only [emphasisRating, hne, Bool.false_eq_true, if_false]
      positivity
    · simp only [emphasisRating, hne, Bool.false_eq_true, if_false]
      rw [div_le_one hnQ]
      exact_mod_cast hrep
    · simp only [calculate_rap_rating, hne, Bool.false_eq_true, if_false]
      exact le_min (le_max_right _ _) (by norm_num)
    · simp only [calculate_rap_rating, hne, Bool.false_eq_true, if_false]
      exact min_le_right _ _

/-- C10: the emphasis rating never exceeds one half: every distinct word
counted as repeated occurs at least twice, so the number of repeated distinct
words is at most half the total word count. -/
theorem emphasisRating_le_half (words : List Word) : emphasisRating words ≤ 1 / 2 := by
  by_cases h : words.isEmpty
  · have h0 : words = [] := List.isEmpty_iff.mp h
    subst h0
    norm_num [emphasisRating]
  · have hne : words.isEmpty = false := by simpa using h
    have hwne : words ≠ [] := by simpa [List.isEmpty_iff] using h
    have hn : 0 < words.length := List.length_pos.mpr hwne
    have hnQ : (0 : ℚ) < (words.length : ℚ) := by exact_mod_cast hn
    have key := two_mul_length_repeated_le (words.map Word.word)
    rw [List.length_map] at key
    simp only [emphasisRating, hne, Bool.false_eq_true, if_false]
    rw [div_le_div_iff₀ hnQ (by norm_num : (0:ℚ) < 2)]
    have keyQ : 2 * (((words.map Word.word).dedup.filter fun t =>
        1 < (words.map Word.word).count t).length : ℚ) ≤ (words.length : ℚ) := by
      exact_mod_cast key
    linarith

/-- Counterexample to C2: four mutually rhyming words produce six rhyme
pairs, so the rhyme density `6/4 = 3/2` exceeds `1`. -/
theorem rhymeDensity_gt_one_counterexample :
    rhymeDensity ["a", "a", "a", "a"] = 3 / 2 ∧
      ¬ rhymeDensity ["a", "a", "a", "a"] ≤ 1 := by
  have h6 : (find_rhyme_pairs ["a", "a", "a", "a"]).length = 6 := by decide
  have hd : rhymeDensity ["a", "a", "a", "a"] = 3 / 2 := by
    simp only [rhymeDensity, List.isEmpty_cons, Bool.false_eq_true, if_false, h6,
      List.length_cons, List.length_nil]
    norm_num
  exact ⟨hd, by rw [hd]; norm_num⟩

/-- C2 (amended): the rhyme density is nonnegative, and for a non-empty word
sequence of length `n` it is bounded by `(n - 1)/2` (the bound `1` claimed by
the specification fails once four or more words mutually rhyme). -/
theorem rhymeDensity_bounds (ws : List String) :
    0 ≤ rhymeDensity ws ∧ (ws ≠ [] → 2 * rhymeDensity ws ≤ (ws.length : ℚ) - 1) := by
  constructor
  · by_cases h : ws.isEmpty
    · simp [rhymeDensity, h]
    · have hne : ws.isEmpty = false := by simpa using h
      simp only [rhymeDensity, hne, Bool.false_eq_true, if_false]
      positivity
  · intro hwne
    have hne : ws.isEmpty = false := by simpa [List.isEmpty_iff] using hwne
    have hn : 0 < ws.length := List.length_pos.mpr hwne
    have hnQ : (0 : ℚ) < (ws.length : ℚ) := by exact_mod_cast hn
    have key := two_mul_length_find_rhyme_pairs_le ws
    have keyQ : 2 * ((find_rhyme_pairs ws).length : ℚ) + (ws.length : ℚ)
        ≤ (ws.length : ℚ) * (ws.length : ℚ) := by exact_mod_cast key
    simp only [rhymeDensity, hne, Bool.false_eq_true, if_false]
    rw [show 2 * (((find_rhyme_pairs ws).length : ℚ) / (ws.length : ℚ))
        = (2 * ((find_rhyme_pairs ws).length : ℚ)) / (ws.length : ℚ) from by ring,
      div_le_iff₀ hnQ]
    nlinarith [keyQ]

/-- Witness for the amended C2 at the two-word transcript
`["low", "glow"]`. -/
theorem rhymeDensity_bounds_witness :
    0 ≤ rhymeDensity ["low", "glow"] ∧
      2 * rhymeDensity ["low", "glow"] ≤ (((["low", "glow"] : List String).length : ℕ) : ℚ) - 1 :=
  ⟨(rhymeDensity_bounds ["low", "glow"]).1,
    (rhymeDensity_bounds ["low", "glow"]).2 (by simp)⟩

/-- Membership in the block of pairs generated for a fixed first word `w`:
`(a, b)` occurs exactly when `a = w`, `b` is a later word, and the suffix
condition holds. -/
lemma mem_head_block {w a b : String} {rest : List String} :
    (a, b) ∈ (rest.filterMap fun v =>
        if lastThreeLower w = lastThreeLower v then some (w, v) else none) ↔
      a = w ∧ b ∈ rest ∧ lastThreeLower w = lastThreeLower b := by
  constructor
  · intro h
    obtain ⟨v, hv, hf⟩ := List.mem_filterMap.mp h
    split_ifs at hf with hc
    · have h2 := Option.some.inj hf
      have h2a : w = a := congrArg Prod.fst h2
      have h2b : v = b := congrArg Prod.snd h2
      subst h2b
      exact ⟨h2a.symm, hv, hc⟩
  · rintro ⟨rfl, hb, hc⟩
    exact List.mem_filterMap.mpr ⟨b, hb, by rw [if_pos hc]⟩

/-- `(ws[i], ws[j])` is generated by `find_rhyme_pairs` whenever `i < j` and
the suffix condition holds (completeness of the double loop: all pairs are
considered, not just adjacent ones). -/
lemma find_rhyme_pairs_complete (ws : List String) :
    ∀ i j (hi : i < ws.length) (hj : j < ws.length), i < j →
      lastThreeLower ws[i] = lastThreeLower ws[j] →
      (ws[i], ws[j]) ∈ find_rhyme_pairs ws := by
  induction ws with
  | nil => intro i j hi; simp at hi
  | cons w rest ih =>
    intro i j hi hj hij hc
    simp only [find_rhyme_pairs, List.mem_append]
    cases i with
    | zero =>
      cases j with
      | zero => omega
      | succ k =>
        left
        have hk : k < rest.length := by simpa using hj
        simp only [List.getElem_cons_zero, List.getElem_cons_succ] at hc ⊢
        rw [mem_head_block]
        exact ⟨rfl, List.getElem_mem hk, hc⟩
    | succ i' =>
      cases j with
      | zero => omega
      | succ j' =>
        right
        have hi' : i' < rest.length := by simpa using hi
        have hj' : j' < rest.length := by simpa using hj
        simp only [List.getElem_cons_succ] at hc ⊢
        exact ih i' j' hi' hj' (by omega) hc

/-- Full characterization of the output of `find_rhyme_pairs`: a pair is
reported exactly when it arises from some index pair `i < j` whose words
satisfy the suffix condition. -/
lemma mem_find_rhyme_pairs_iff (ws : List String) (a b : String) :
    (a, b) ∈ find_rhyme_pairs ws ↔
      ∃ i j, ∃ (hi : i < ws.length) (hj : j < ws.length),
        i < j ∧ ws[i] = a ∧ ws[j] = b ∧ lastThreeLower a = lastThreeLower b := by
  constructor
  · induction ws with
    | nil => intro h; simp [find_rhyme_pairs] at h
    | cons w rest ih =>
      intro h
      simp only [find_rhyme_pairs, List.mem_append] at h
      rcases h with h | h
      · rw [mem_head_block] at h
        obtain ⟨rfl, hb, hc⟩ := h
        obtain ⟨k, hk, hkb⟩ := List.mem_iff_getElem.mp hb
        refine ⟨0, k + 1, by simp, by simpa using Nat.succ_lt_succ hk, by omega, ?_, ?_, hc⟩
        · simp
        · simpa using hkb
      · obtain ⟨i, j, hi, hj, hij, ha, hb', hc⟩ := ih h
        exact ⟨i + 1, j + 1, by simpa using Nat.succ_lt_succ hi,
          by simpa using Nat.succ_lt_succ hj, by omega, by simpa using ha,
          by simpa using hb', hc⟩
  · rintro ⟨i, j, hi, hj, hij, rfl, rfl, hc⟩
    exact find_rhyme_pairs_complete ws i j hi hj hij hc

/-- The rhyme criterion as the specification words it: the last three
characters of each word compared case-insensitively, where a word shorter
than three characters contributes its whole (shorter) string. -/
def lastThreeSpec (s : String) : List Char :=
  if s.length < 3 then s.data.map Char.toLower
  else (s.data.drop (s.data.length - 3)).map Char.toLower

/-- The code's suffix key agrees with the spec's reading, including the
short-word case. -/
lemma lastThreeSpec_eq (s : String) : lastThreeSpec s = lastThreeLower s := by
  unfold lastThreeSpec lastThreeLower
  split_ifs with h
  · have hlen : s.length = s.data.length := rfl
    have h0 : s.data.length - 3 = 0 := by omega
    rw [h0, List.drop_zero]
  · rfl

/-- C3: for every index pair `i < j`, `(ws[i], ws[j])` is reported by
`find_rhyme_pairs` if and only if the last three characters of the two words
(each whole word when shorter than three characters), compared
case-insensitively, are identical; all `O(n²)` pairs are considered. -/
theorem find_rhyme_pairs_pair_iff (ws : List String) (i j : ℕ)
    (hi : i < ws.length) (hj : j < ws.length) (hij : i < j) :
    (ws[i], ws[j]) ∈ find_rhyme_pairs ws ↔ lastThreeSpec ws[i] = lastThreeSpec ws[j] := by
  rw [lastThreeSpec_eq, lastThreeSpec_eq]
  constructor
  · intro h
    obtain ⟨_, _, _, _, _, _, _, hc⟩ := (mem_find_rhyme_pairs_iff ws _ _).mp h
    exact hc
  · intro hc
    exact find_rhyme_pairs_complete ws i j hi hj hij hc

/-- Witness for C3 at `["flow", "glow", "dog"]`, indices 0 and 1. -/
theorem find_rhyme_pairs_pair_iff_witness :
    (("flow", "glow") ∈ find_rhyme_pairs ["flow", "glow", "dog"] ↔
      lastThreeSpec "flow" = lastThreeSpec "glow") := by
  have h := find_rhyme_pairs_pair_iff ["flow", "glow", "dog"] 0 1
    (by decide) (by decide) (by decide)
  simpa using h

/-- Counterexample to C4: with the repeated word list `["a", "a", "a"]` the
pair `("a", "a")` is reported three times, so an unordered pair can recur in
the output. -/
theorem find_rhyme_pairs_duplicate_counterexample :
    (find_rhyme_pairs ["a", "a", "a"]).count ("a", "a") = 3 ∧
      ¬ (find_rhyme_pairs ["a", "a", "a"]).Nodup := by
  decide

/-- On duplicate-free input the output of `find_rhyme_pairs` is
duplicate-free. -/
lemma find_rhyme_pairs_nodup {ws : List String} (h : ws.Nodup) :
    (find_rhyme_pairs ws).Nodup := by
  induction ws with
  | nil => simp [find_rhyme_pairs]
  | cons w rest ih =>
    obtain ⟨hw, hr⟩ := List.nodup_cons.mp h
    simp only [find_rhyme_pairs]
    refine List.Nodup.append ?_ (ih hr) ?_
    · refine List.Nodup.filterMap ?_ hr
      intro x x' y hx hx'
      simp only [Option.mem_def] at hx hx'
      split_ifs at hx hx'
      rw [← hx] at hx'
      exact (congrArg Prod.snd (Option.some.inj hx')).symm
    · intro p hp hp'
      cases p with
      | mk a b =>
        rw [mem_head_block] at hp
        obtain ⟨rfl, _, _⟩ := hp
        obtain ⟨i, j, hi, hj, hij, ha, hb, hc⟩ := (mem_find_rhyme_pairs_iff rest _ _).mp hp'
        exact hw (ha ▸ List.getElem_mem hi)

/-- On duplicate-free input, no pair is reported in both orders. -/
lemma find_rhyme_pairs_no_reverse {ws : List String} (h : ws.Nodup) {a b : String}
    (h1 : (a, b) ∈ find_rhyme_pairs ws) (h2 : (b, a) ∈ find_rhyme_pairs ws) : False := by
  obtain ⟨i, j, hi, hj, hij, hia, hjb, _⟩ := (mem_find_rhyme_pairs_iff ws a b).mp h1
  obtain ⟨k, l, hk, hl, hkl, hkb, hla, _⟩ := (mem_find_rhyme_pairs_iff ws b a).mp h2
  have h3 : i = l := by
    have he : ws[i] = ws[l] := by rw [hia, hla]
    exact (List.Nodup.getElem_inj_iff h).mp he
  have h4 : j = k := by
    have he : ws[j] = ws[k] := by rw [hjb, hkb]
    exact (List.Nodup.getElem_inj_iff h).mp he
  omega

/-- C4 (amended): every reported pair shares the case-insensitive
three-character suffix, and for a duplicate-free word sequence the output
contains no duplicate pairs and reports no unordered pair in both orders;
when input words repeat, a pair may be reported once per index pair, so value
pairs can recur (see the counterexample). -/
theorem find_rhyme_pairs_sound_and_no_duplicates (ws : List String) :
    (∀ p ∈ find_rhyme_pairs ws, lastThreeLower p.1 = lastThreeLower p.2) ∧
      (ws.Nodup → (find_rhyme_pairs ws).Nodup ∧
        ∀ a b : String, (a, b) ∈ find_rhyme_pairs ws →
          (b, a) ∈ find_rhyme_pairs ws → False) := by
  constructor
  · rintro ⟨a, b⟩ hp
    obtain ⟨_, _, _, _, _, _, _, hc⟩ := (mem_find_rhyme_pairs_iff ws a b).mp hp
    exact hc
  · intro hnd
    exact ⟨find_rhyme_pairs_nodup hnd,
      fun a b h1 h2 => find_rhyme_pairs_no_reverse hnd h1 h2⟩

/-- Witness for the amended C4 on the duplicate-free input
`["low", "glow", "dog"]`. -/
theorem find_rhyme_pairs_sound_and_no_duplicates_witness :
    (find_rhyme_pairs ["low", "glow", "dog"]).Nodup :=
  ((find_rhyme_pairs_sound_and_no_duplicates ["low", "glow", "dog"]).2 (by decide)).1

/-- Length of the common prefix of two character lists: the size of a
matching block anchored at a fixed pair of positions. -/
def matchLen : List Char → List Char → ℕ
  | x :: xs, y :: ys => if x = y then matchLen xs ys + 1 else 0
  | _, _ => 0

/-- One candidate step of the longest-match search: replace the current best
`(i, j, size)` when the block anchored at `(i, j)` is strictly longer
(keeping, among maximal blocks, the one starting earliest in `a`, then
earliest in `b`). -/
def flmStep (a b : List Char) (i : ℕ) (best : ℕ × ℕ × ℕ) (j : ℕ) : ℕ × ℕ × ℕ :=
  let k := matchLen (a.drop i) (b.drop j)
  if best.2.2 < k then (i, j, k) else best

/-- Scan all anchors in `b` for a fixed anchor `i` in `a`. -/
def flmInner (a b : List Char) (best : ℕ × ℕ × ℕ) (i : ℕ) : ℕ × ℕ × ℕ :=
  (List.range b.length).foldl (flmStep a b i) best

/-- The longest matching block `(i, j, size)` of two character lists,
modelling `difflib.SequenceMatcher.find_longest_match` as used by
`music_comparison` in `src/app.py` line 287 with `isjunk=None` (the junk
heuristics are disabled; the autojunk popularity heuristic is not modelled,
matching the specification's description of the algorithm). -/
def findLongestMatch (a b : List Char) : ℕ × ℕ × ℕ :=
  (List.range a.length).foldl (flmInner a b) (0, 0, 0)

/-- Total size of all matching blocks: the longest block is found, then the
regions to its left and to its right are processed recursively
(`difflib.SequenceMatcher.get_matching_blocks`).  The fuel argument bounds
the recursion depth; `length a + length b` always suffices since each
recursive call strictly shrinks the combined length. -/
def matchTotal : ℕ → List Char → List Char → ℕ
  | 0, _, _ => 0
  | fuel + 1, a, b =>
    let m := findLongestMatch a b
    if m.2.2 = 0 then 0
    else
      matchTotal fuel (a.take m.1) (b.take m.2.1) + m.2.2 +
        matchTotal fuel (a.drop (m.1 + m.2.2)) (b.drop (m.2.1 + m.2.2))

/-- `difflib.SequenceMatcher.ratio()`: `2*M / T` where `M` is the total
matched size and `T` the combined length (`1.0` when both inputs are
empty). -/
def sequence_ratio (a b : List Char) : ℚ :=
  if a.length + b.length = 0 then 1
  else 2 * (matchTotal (a.length + b.length) a b : ℚ) / ((a.length + b.length : ℕ) : ℚ)

/-- `music_comparison` of `src/app.py` lines 285-292 (identical in
`src/streamlit_app.py` lines 92-99), reduced to its data content: both lyric
texts are lower-cased, the sequence-matching similarity ratio is scaled to a
percentage, and the plagiarism flag is raised exactly when the percentage
strictly exceeds 70. -/
def music_comparison (song1 song2 : String) : ℚ × Bool :=
  let similarity :=
    sequence_ratio (song1.data.map Char.toLower) (song2.data.map Char.toLower) * 100
  (similarity, decide (70 < similarity))

lemma foldl_fixed {α β : Type _} (f : β → α → β) (b : β) :
    ∀ l : List α, (∀ x ∈ l, f b x = b) → l.foldl f b = b := by
  intro l
  induction l with
  | nil => intro _; rfl
  | cons a t ih =>
    intro h
    rw [List.foldl_cons, h a (by simp)]
    exact ih fun x hx => h x (by simp [hx])

lemma matchLen_self (l : List Char) : matchLen l l = l.length := by
  induction l with
  | nil => rfl
  | cons x xs ih => simp [matchLen, ih]

lemma matchLen_le_left : ∀ (a b : List Char), matchLen a b ≤ a.length := by
  intro a
  induction a with
  | nil => intro b; cases b <;> simp [matchLen]
  | cons x xs ih =>
    intro b
    cases b with
    | nil => simp [matchLen]
    | cons y ys =>
      simp only [matchLen, List.length_cons]
      split_ifs
      · exact Nat.succ_le_succ (ih ys)
      · exact Nat.zero_le _

lemma flmStep_fixed {a b : List Char} {i j : ℕ} {best : ℕ × ℕ × ℕ}
    (h : matchLen (a.drop i) (b.drop j) ≤ best.2.2) : flmStep a b i best j = best := by
  unfold flmStep
  rw [if_neg (by omega)]

lemma flmInner_fixed {a b : List Char} {i : ℕ} {best : ℕ × ℕ × ℕ}
    (h : ∀ j, matchLen (a.drop i) (b.drop j) ≤ best.2.2) : flmInner a b best i = best :=
  foldl_fixed _ _ _ fun j _ => flmStep_fixed (h j)

/-- On two copies of the same non-empty list the longest matching block is
the whole list, anchored at the start. -/
lemma findLongestMatch_self (c : List Char) (h : c ≠ []) :
    findLongestMatch c c = (0, 0, c.length) := by
  have hpos : 0 < c.length := List.length_pos.mpr h
  have hbound : ∀ i j, matchLen (c.drop i) (c.drop j) ≤ c.length := by
    intro i j
    calc matchLen (c.drop i) (c.drop j) ≤ (c.drop i).length := matchLen_le_left _ _
    _ ≤ c.length := by rw [List.length_drop]; omega
  obtain ⟨n, hn⟩ : ∃ n, c.length = n + 1 := ⟨c.length - 1, by omega⟩
  have hrange : List.range c.length = 0 :: (List.range n).map Nat.succ := by
    rw [hn, List.range_succ_eq_map]
  have hfirst : flmInner c c (0, 0, 0) 0 = (0, 0, c.length) := by
    unfold flmInner
    rw [hrange, List.foldl_cons]
    have hstep : flmStep c c 0 (0, 0, 0) 0 = (0, 0, c.length) := by
      simp [flmStep, matchLen_self, hpos]
    rw [hstep]
    refine foldl_fixed _ _ _ ?_
    intro j hj
    exact flmStep_fixed (by simpa using hbound 0 j)
  unfold findLongestMatch
  rw [hrange, List.foldl_cons, hfirst]
  refine foldl_fixed _ _ _ ?_
  intro i hi
  refine flmInner_fixed ?_
  intro j
  simpa using hbound i j

lemma matchTotal_nil_left (fuel : ℕ) (b : List Char) : matchTotal fuel [] b = 0 := by
  cases fuel with
  | zero => rfl
  | succ f => simp [matchTotal, findLongestMatch]

/-- Matching a non-empty list against itself matches everything. -/
lemma matchTotal_self (c : List Char) (h : c ≠ []) (fuel : ℕ) :
    matchTotal (fuel + 1) c c = c.length := by
  have hne0 : c.length ≠ 0 := by
    have := List.length_pos.mpr h
    omega
  simp only [matchTotal, findLongestMatch_self c h]
  simp [hne0, matchTotal_nil_left, List.drop_length]

/-- C7: comparing a non-empty text with itself yields a similarity of exactly
100 percent, and the plagiarism flag is raised. -/
theorem music_comparison_self_full_similarity (x : String) (h : x ≠ "") :
    music_comparison x x = (100, true) := by
  have hd : x.data ≠ [] := by
    intro hdata
    apply h
    cases x with
    | mk data =>
      simp only at hdata
      rw [hdata]
  simp only [music_comparison]
  set c := x.data.map Char.toLower with hc
  have hcne : c ≠ [] := by simp [hc, hd]
  have hpos : 0 < c.length := List.length_pos.mpr hcne
  have hratio : sequence_ratio c c = 1 := by
    unfold sequence_ratio
    rw [if_neg (by omega)]
    obtain ⟨f, hf⟩ : ∃ f, c.length + c.length = f + 1 := ⟨c.length + c.length - 1, by omega⟩
    rw [hf, matchTotal_self c hcne f, ← hf]
    have hnQ : (0 : ℚ) < (c.length : ℚ) := by exact_mod_cast hpos
    rw [div_eq_one_iff_eq (by push_cast; linarith)]
    push_cast
    ring
  rw [hratio]
  norm_num

/-- Witness for C7 at the text `"abc"`. -/
theorem music_comparison_self_full_similarity_witness :
    music_comparison "abc" "abc" = (100, true) :=
  music_comparison_self_full_similarity "abc" (by decide)

/-- C8: for non-empty inputs the plagiarism flag is raised exactly when the
similarity percentage strictly exceeds 70; a percentage of exactly 70 is not
flagged. -/
theorem music_comparison_flag_iff (s1 s2 : String) (h1 : s1 ≠ "") (h2 : s2 ≠ "") :
    ((music_comparison s1 s2).2 = true ↔ 70 < (music_comparison s1 s2).1) ∧
      ((music_comparison s1 s2).1 = 70 → (music_comparison s1 s2).2 = false) := by
  simp only [music_comparison]
  constructor
  · exact decide_eq_true_iff
  · intro heq
    rw [decide_eq_false_iff_not, heq]
    exact lt_irrefl 70

/-- Witness for C8 at the texts `"abc"` and `"xyz"`. -/
theorem music_comparison_flag_iff_witness :
    (((music_comparison "abc" "xyz").2 = true ↔ 70 < (music_comparison "abc" "xyz").1) ∧
      ((music_comparison "abc" "xyz").1 = 70 → (music_comparison "abc" "xyz").2 = false)) :=
  music_comparison_flag_iff "abc" "xyz" (by decide) (by decide)
